import Mathlib

/-!
Formal model of the `ScheduleSolver` course-timetabling engine.

This file gives a shallow embedding, in Lean 4, of the JavaScript class
`ScheduleSolver` (the course timetabling engine: `solve`,
`initializeAvailability`, `backtrackScheduling`, `relaxedScheduling`,
`tryToSplitCourse`), and proves or refutes the specified properties of
the engine.

Modelling conventions:
* JavaScript objects become Lean structures; absent fields (`isSplit`,
  `originalDuration` on input courses) are modelled with explicit
  defaults (`false`, `none`), matching the falsy reading of `undefined`.
* The availability dictionary `{Monday: {8: true, ...}, ...}` becomes a
  function `Day → Nat → Bool`; `initializeAvailability` sets exactly the
  keys 8..17 to `true`, and a lookup outside those keys (which yields
  `undefined`, i.e. falsy, in JavaScript) is modelled as `false`.
* `Math.random()`-driven day selection in `tryToSplitCourse` is modelled
  by an explicit stream of natural numbers (`List Nat`, exhausted tail
  reads as 0); the JavaScript index `Math.floor(Math.random() * n)` is
  modelled as `stream head % n`, which ranges over exactly the indices
  the JavaScript code can produce.
* The `while` loop of `tryToSplitCourse` is modelled with explicit fuel;
  `splitFuel` is a proven upper bound on the number of iterations the
  JavaScript loop can perform, so the fuelled function never exhausts
  its fuel (lemma `splitLoop_spec` below makes this precise).
* `JSON.parse(JSON.stringify(courses))` is a deep copy; on the value
  level it is the identity, which is how it is modelled.
-/

/-- The five week days, in the fixed order of `this.days`. -/
inductive Day where
  | monday | tuesday | wednesday | thursday | friday
deriving DecidableEq, Repr

/-- The day list `this.days = ['Monday', ..., 'Friday']`. -/
def solverDays : List Day :=
  [Day.monday, Day.tuesday, Day.wednesday, Day.thursday, Day.friday]

/-- The hour list `this.hours`, built as `i + 8` for `i < 10`, i.e. 8..17. -/
def solverHours : List Nat := (List.range 10).map (· + 8)

/-- A course record as submitted to the engine (form fields of
`addCourseToQueue`). `originalDuration` is absent (`none`) on input
courses; the split path adds it (`{...course, originalDuration}`). -/
structure Course where
  id : String
  code : String
  name : String
  teacher : String
  duration : Nat
  preferredDays : List Day
  preferredTimes : String
  originalDuration : Option Nat := none
deriving DecidableEq, Repr

/-- One entry pushed onto the `schedule` array: `{course, day, hour,
duration: 1}` with `isSplit: true` added on the split path (absent, i.e.
falsy, otherwise). -/
structure Slot where
  course : Course
  day : Day
  hour : Nat
  duration : Nat
  isSplit : Bool
deriving DecidableEq, Repr

/-- The availability dictionary built by `initializeAvailability`,
as its lookup function. -/
def Avail : Type := Day → Nat → Bool

/-- The map built by `initializeAvailability()`: every key `(day, hour)` with
`hour ∈ 8..17` maps to `true`; anything else is absent (falsy). -/
def initAvail : Avail := fun _ h => decide (8 ≤ h) && decide (h ≤ 17)

/-- Setting `availability[day][hour] = false` for a single cell. -/
def markCell (a : Avail) (day : Day) (hour : Nat) : Avail :=
  fun d h => if d = day && h = hour then false else a d h

/-- Marking the `duration` consecutive cells starting at `start` on
`day` as used (the `for (let h = 0; h < course.duration; h++)` marking
loops). -/
def markBlock (a : Avail) (day : Day) (start dur : Nat) : Avail :=
  (List.range dur).foldl (fun acc h => markCell acc day (start + h)) a

/-- The start hours tried by `for (let startHour = 8;
startHour <= 17 - course.duration; startHour++)`: the list
`[8, ..., 17 - dur]`, empty when `dur > 9`. -/
def startRange (dur : Nat) : List Nat := (List.range (10 - dur)).map (· + 8)

/-- The non-split slots pushed for one placement of course `c` on `day`
starting at `start`: one slot per hour `start + h`, `h < c.duration`. -/
def contigBlock (c : Course) (day : Day) (start : Nat) : List Slot :=
  (List.range c.duration).map fun h =>
    { course := c, day := day, hour := start + h, duration := 1, isSplit := false }

/-- Exact solver, line 388: days to try are the preferred days when
non-empty, otherwise all five days. -/
def daysToTryExact (c : Course) : List Day :=
  if c.preferredDays.length > 0 then c.preferredDays else solverDays

/-- Relaxed solver, line 471: preferred days first, then the remaining
days in fixed order. -/
def daysToTryRelaxed (c : Course) : List Day :=
  c.preferredDays ++ solverDays.filter (fun d => !(c.preferredDays.contains d))

/-- The inner feasibility check of `backtrackScheduling` (lines
399–407): every hour of the block must satisfy `8 ≤ hour`, `hour < 17`
and be available. -/
def canPlaceExact (a : Avail) (day : Day) (start dur : Nat) : Bool :=
  (List.range dur).all fun h =>
    decide (8 ≤ start + h) && decide (start + h < 17) && a day (start + h)

/-- The inner feasibility check of `relaxedScheduling` (lines 481–487):
every hour of the block must be available (the slot keys visited are
already within 8..16 by the start-hour bound). -/
def canPlaceRelaxed (a : Avail) (day : Day) (start dur : Nat) : Bool :=
  (List.range dur).all fun h => a day (start + h)

/-- First `some` result of `f` along a list (the fall-through of the
candidate loops: try each candidate until one leads to success). -/
def firstSome (f : α → Option β) : List α → Option β
  | [] => none
  | x :: xs => match f x with
    | some b => some b
    | none => firstSome f xs

/-- The function `backtrackScheduling(courses, schedule, teacherAvailability,
courseIndex)` (lines 379–445).  The JavaScript indexes the full course
array with `courseIndex`; the model recurses on the remaining suffix of
the course list.  Success returns the schedule, failure `none`. -/
def backtrackScheduling : List Course → List Slot → Avail → Option (List Slot)
  | [], schedule, _ => some schedule
  | c :: rest, schedule, avail =>
    firstSome (fun day =>
      firstSome (fun startHour =>
        if canPlaceExact avail day startHour c.duration then
          backtrackScheduling rest (schedule ++ contigBlock c day startHour)
            (markBlock avail day startHour c.duration)
        else none)
        (startRange c.duration))
      (daysToTryExact c)

/-- The hours scanned by the split path's `for (let hour = 8; hour < 17;
hour++)` loop: 8..16. -/
def splitHours : List Nat := (List.range 9).map (· + 8)

/-- The slot pushed by `tryToSplitCourse`: the course copy gains an
`originalDuration` field and the slot is flagged `isSplit`. -/
def splitSlot (c : Course) (origDur : Nat) (day : Day) (hour : Nat) : Slot :=
  { course := { c with originalDuration := some origDur }, day := day,
    hour := hour, duration := 1, isSplit := true }

/-- One visit of `tryToSplitCourse` to a single day: scan the hours in
order, place every free hour (flagging `placedOnThisDay`), stop as soon
as `hoursPlaced` reaches `originalDuration`.  Returns the updated
schedule, availability, `hoursPlaced`, and the `placedOnThisDay` flag. -/
def splitDayHours (c : Course) (origDur : Nat) (day : Day) :
    List Nat → List Slot → Avail → Nat → Bool → List Slot × Avail × Nat × Bool
  | [], sched, avail, hp, flag => (sched, avail, hp, flag)
  | h :: hs, sched, avail, hp, flag =>
    if avail day h then
      if origDur ≤ hp + 1 then
        (sched ++ [splitSlot c origDur day h], markCell avail day h, hp + 1, true)
      else
        splitDayHours c origDur day hs (sched ++ [splitSlot c origDur day h])
          (markCell avail day h) (hp + 1) true
    else splitDayHours c origDur day hs sched avail hp flag

/-- An upper bound on the number of iterations of the `while` loop of
`tryToSplitCourse`: every iteration either places at least one hour
(at most `origDur` times) or removes a day (at most 5 times). -/
def splitFuel (origDur : Nat) : Nat := origDur + 6

/-- The `while (hoursPlaced < originalDuration && daysToTry.length > 0)`
loop of `tryToSplitCourse` (lines 531–563).  Each iteration consumes one
random number to pick a day index; a day on which nothing could be
placed is removed (`splice`).  Fuel exhaustion returns `none`; lemma
`splitLoop_of_fuel` shows `splitFuel` makes this unreachable. -/
def splitLoop (c : Course) (origDur : Nat) :
    Nat → List Nat → List Day → List Slot → Avail → Nat →
      Option (List Slot × Avail × Nat × List Nat)
  | 0, _, _, _, _, _ => none
  | fuel + 1, rnd, daysToTry, sched, avail, hp =>
    if hp < origDur ∧ 0 < daysToTry.length then
      match splitDayHours c origDur
          (daysToTry.getD (rnd.headD 0 % daysToTry.length) Day.monday)
          splitHours sched avail hp false with
      | (sched', avail', hp', flag) =>
        if flag then
          splitLoop c origDur fuel rnd.tail daysToTry sched' avail' hp'
        else
          splitLoop c origDur fuel rnd.tail
            (daysToTry.eraseIdx (rnd.headD 0 % daysToTry.length)) sched' avail' hp'
    else some (sched, avail, hp, rnd)

/-- The function `tryToSplitCourse(course, schedule, teacherAvailability)` (lines
525–566), with the random source and the mutated state made explicit.
Returns the boolean `hoursPlaced >= originalDuration` together with the
updated schedule, availability and remaining random stream. -/
def tryToSplitCourse (c : Course) (sched : List Slot) (avail : Avail)
    (rnd : List Nat) : Bool × List Slot × Avail × List Nat :=
  match splitLoop c c.duration (splitFuel c.duration) rnd solverDays sched avail 0 with
  | some (sched', avail', hp', rnd') => (decide (c.duration ≤ hp'), sched', avail', rnd')
  | none => (false, sched, avail, rnd)

/-- The contiguous-placement scan of `relaxedScheduling` for one course
(lines 476–509): first day (preferred first), then first feasible start
hour; on a hit, push the block and mark the hours. -/
def placeContiguous (c : Course) (sched : List Slot) (avail : Avail) :
    Option (List Slot × Avail) :=
  firstSome (fun day =>
    firstSome (fun start =>
      if canPlaceRelaxed avail day start c.duration then
        some (sched ++ contigBlock c day start, markBlock avail day start c.duration)
      else none)
      (startRange c.duration))
    (daysToTryRelaxed c)

/-- The result object of `relaxedScheduling`: `{success, schedule}` on
success, `{success: false, message}` (no schedule) on failure. -/
structure RelaxedResult where
  success : Bool
  schedule : List Slot := []
  message : Option String := none
deriving DecidableEq, Repr

/-- The number of explicit preferred days used as the sort tie-break
(`a.preferredDays ? a.preferredDays.length : 0`). -/
def prefCount (c : Course) : Nat := c.preferredDays.length

/-- Whether `a` may be ordered at or before `b` by the comparator of
`relaxedScheduling` (duration descending, then preferred-day count
ascending): the comparator returns a value `≤ 0` on `(a, b)`. -/
def courseBefore (a b : Course) : Bool :=
  decide (b.duration < a.duration) ||
    (decide (a.duration = b.duration) && decide (prefCount a ≤ prefCount b))

/-- Stable insertion of a course before the first entry it must precede. -/
def insertCourse (x : Course) : List Course → List Course
  | [] => [x]
  | y :: ys => if courseBefore x y then x :: y :: ys else y :: insertCourse x ys

/-- The sort `[...courses].sort(comparator)` (lines 449–460).  JavaScript
`Array.prototype.sort` is stable, and a stable sort with respect to the
total preorder induced by a consistent comparator is unique, so this
stable insertion sort computes exactly the sorted array of the source. -/
def sortCourses : List Course → List Course
  | [] => []
  | x :: xs => insertCourse x (sortCourses xs)

/-- The per-course loop of `relaxedScheduling` (lines 467–520) over the
already-sorted course list: contiguous placement, else (for duration
> 1) the split path, else fail immediately with a message naming the
course. -/
def relaxedGo : List Course → List Nat → List Slot → Avail → RelaxedResult
  | [], _, sched, _ => { success := true, schedule := sched }
  | c :: rest, rnd, sched, avail =>
    match placeContiguous c sched avail with
    | some (sched', avail') => relaxedGo rest rnd sched' avail'
    | none =>
      if c.duration > 1 then
        match tryToSplitCourse c sched avail rnd with
        | (true, sched', avail', rnd') => relaxedGo rest rnd' sched' avail'
        | (false, _, _, _) =>
          { success := false, message := some ("Could not place course " ++ c.code) }
      else
        { success := false, message := some ("Could not place course " ++ c.code) }

/-- The function `relaxedScheduling(courses)` (lines 447–523). -/
def relaxedScheduling (rnd : List Nat) (courses : List Course) : RelaxedResult :=
  relaxedGo (sortCourses courses) rnd [] initAvail

/-- The result object of `solve`. A failure result carries no schedule
(modelled as the empty list). -/
structure SolveResult where
  success : Bool
  schedule : List Slot := []
  message : Option String := none
deriving DecidableEq, Repr

/-- Message attached when the relaxed path produced the schedule. -/
def relaxedMessage : String := "Schedule created with some relaxed constraints"

/-- Message of the overall-failure result of `solve`. -/
def solveFailMessage : String :=
  "Could not create a valid schedule. Try reducing constraints or removing some courses."

/-- The function `solve(courses)` (lines 326–363): deep-copy the input (the identity
on values), run the exact backtracking solver, and on failure fall back
to the relaxed solver.  The random stream consumed by the split path is
an explicit argument. -/
def solve (rnd : List Nat) (courses : List Course) : SolveResult :=
  let coursesCopy := courses
  match backtrackScheduling coursesCopy [] initAvail with
  | some schedule => { success := true, schedule := schedule }
  | none =>
    let relaxedResult := relaxedScheduling rnd coursesCopy
    if relaxedResult.success then
      { success := true, schedule := relaxedResult.schedule,
        message := some relaxedMessage }
    else
      { success := false, message := some solveFailMessage }

/-! Basic facts about the candidate iteration, the availability map and
the hour ranges. -/

/-- The order `a` is at most as available as `b`: every cell free in `a`
is free in `b` (marking only removes availability). -/
def AvailLE (a b : Avail) : Prop := ∀ d h, a d h = true → b d h = true

/-- The grid cell occupied by a slot. -/
def cellOf (s : Slot) : Day × Nat := (s.day, s.hour)

/-- Occupancy invariant tying a schedule to an availability map. -/
structure SchedInv (sched : List Slot) (avail : Avail) : Prop where
  pw : sched.Pairwise fun s t => cellOf s ≠ cellOf t
  occ : ∀ s ∈ sched, avail s.day s.hour = false
  bounds : ∀ s ∈ sched, 8 ≤ s.hour ∧ s.hour < 17

/-- Number of free usable hours of day `d`. -/
def freeRow (a : Avail) (d : Day) : Nat := splitHours.countP fun h => a d h

/-- Number of free usable cells on the days listed in `ds`. -/
def freeOn (ds : List Day) (a : Avail) : Nat := (ds.map (freeRow a)).sum

/-- Number of free usable cells of the whole grid. -/
def freeTotal (a : Avail) : Nat := freeOn solverDays a

/-- Everything `splitDayHours` guarantees about one day visit. -/
structure SplitDayOut (c : Course) (origDur : Nat) (day : Day) (hs : List Nat)
    (sched : List Slot) (avail : Avail) (hp : Nat) (flag : Bool)
    (sched' : List Slot) (avail' : Avail) (hp' : Nat) (flag' : Bool) : Prop where
  app : ∃ new, sched' = sched ++ new ∧ new.length + hp = hp' ∧
    ∀ s ∈ new, ∃ h, h ∈ hs ∧ s = splitSlot c origDur day h
  mono : hp ≤ hp'
  le : hp' ≤ origDur
  cnt : hp' = min origDur (hp + hs.countP fun h => avail day h)
  flagEq : flag' = (flag || decide (hp < hp'))
  availLE : AvailLE avail' avail
  outside : ∀ d h, ¬(d = day ∧ h ∈ hs) → avail' d h = avail d h
  row : freeRow avail' day + (hp' - hp) = freeRow avail day
  inv : SchedInv sched avail → SchedInv sched' avail'
  fix : hp' = hp → sched' = sched ∧ avail' = avail ∧ flag' = flag

/-- Everything the split `while` loop guarantees, for any random
stream: in particular it places exactly
`min origDur (hp + freeOn ds avail) - hp` further hours. -/
structure SplitLoopOut (c : Course) (origDur : Nat) (ds : List Day)
    (sched : List Slot) (avail : Avail) (hp : Nat)
    (sched' : List Slot) (avail' : Avail) (hp' : Nat) : Prop where
  app : ∃ new, sched' = sched ++ new ∧ new.length + hp = hp' ∧
    ∀ s ∈ new, ∃ d h, d ∈ ds ∧ 8 ≤ h ∧ h < 17 ∧ s = splitSlot c origDur d h
  mono : hp ≤ hp'
  le : hp' ≤ origDur
  cnt : hp' = min origDur (hp + freeOn ds avail)
  availLE : AvailLE avail' avail
  total : freeTotal avail' + (hp' - hp) = freeTotal avail
  inv : SchedInv sched avail → SchedInv sched' avail'

/-- Total requested hours of a course list. -/
def sumDur (cs : List Course) : Nat := (cs.map Course.duration).sum

/-- The shape of the slots one course contributes to a successful
schedule: either a contiguous same-day block inside the operating
window, or (split path) exactly `duration` single-hour `isSplit` slots
at usable hours. -/
def CourseBlock (c : Course) (b : List Slot) : Prop :=
  (∃ day start, 8 ≤ start ∧ start + c.duration ≤ 17 ∧ b = contigBlock c day start) ∨
  (b.length = c.duration ∧ ∀ s ∈ b, ∃ day hour, 8 ≤ hour ∧ hour < 17 ∧
    s = splitSlot c c.duration day hour)

/-- A feasible assignment for the exact solver: one (day, start hour)
candidate per course, feasible step by step against the evolving
availability, with the day drawn from that course's `daysToTryExact`
candidate list and the start hour from its scanned range. -/
def FeasibleFrom : Avail → List Course → List (Day × Nat) → Prop
  | _, [], [] => True
  | avail, c :: cs, p :: ps =>
    p.1 ∈ daysToTryExact c ∧ p.2 ∈ startRange c.duration ∧
    canPlaceExact avail p.1 p.2 c.duration = true ∧
    FeasibleFrom (markBlock avail p.1 p.2 c.duration) cs ps
  | _, _, _ => False

/-- The per-course contiguous blocks determined by an assignment. -/
def planBlocks (cs : List Course) (ps : List (Day × Nat)) : List (List Slot) :=
  List.zipWith (fun c (p : Day × Nat) => contigBlock c p.1 p.2) cs ps

/-! Concrete course fixtures used by the witnesses and counterexamples. -/

/-- A 9-hour course that insists on Monday. -/
def courseM1 : Course :=
  { id := "m1", code := "M1", name := "Mon A", teacher := "T", duration := 9,
    preferredDays := [Day.monday], preferredTimes := "" }

/-- A second 9-hour course that also insists on Monday. -/
def courseZ1 : Course :=
  { id := "z1", code := "Z1", name := "Mon B", teacher := "T", duration := 9,
    preferredDays := [Day.monday], preferredTimes := "" }

/-- The same course as `courseZ1` but with no day preference. -/
def courseZ1free : Course :=
  { id := "z1", code := "Z1", name := "Mon B", teacher := "T", duration := 9,
    preferredDays := [], preferredTimes := "" }

/-- A 46-hour course: more than the whole usable grid (45 cells). -/
def courseBig : Course :=
  { id := "big", code := "BIG", name := "Big", teacher := "T", duration := 46,
    preferredDays := [], preferredTimes := "" }

/-- A trivially placeable one-hour course. -/
def courseTiny : Course :=
  { id := "tiny", code := "TINY", name := "Tiny", teacher := "T", duration := 1,
    preferredDays := [], preferredTimes := "" }

/-- A trivially placeable two-hour course. -/
def courseW : Course :=
  { id := "w", code := "W", name := "W", teacher := "T", duration := 2,
    preferredDays := [], preferredTimes := "" }

/-- Eight-hour course preferring Monday (randomness fixture). -/
def courseA3 : Course :=
  { id := "a", code := "A", name := "A", teacher := "T", duration := 8,
    preferredDays := [Day.monday], preferredTimes := "" }

/-- Eight-hour course preferring Tuesday (randomness fixture). -/
def courseB3 : Course :=
  { id := "b", code := "B", name := "B", teacher := "T", duration := 8,
    preferredDays := [Day.tuesday], preferredTimes := "" }

/-- Eight-hour course preferring Wednesday (randomness fixture). -/
def courseC3 : Course :=
  { id := "c", code := "C", name := "C", teacher := "T", duration := 8,
    preferredDays := [Day.wednesday], preferredTimes := "" }

/-- Nine-hour course preferring Thursday (randomness fixture). -/
def courseD3 : Course :=
  { id := "d", code := "D", name := "D", teacher := "T", duration := 9,
    preferredDays := [Day.thursday], preferredTimes := "" }

/-- Nine-hour course preferring Friday (randomness fixture). -/
def courseE3 : Course :=
  { id := "e", code := "E", name := "E", teacher := "T", duration := 9,
    preferredDays := [Day.friday], preferredTimes := "" }

/-- Two-hour course preferring Monday; ends up split across days. -/
def courseZ3 : Course :=
  { id := "z", code := "Z", name := "Z", teacher := "T", duration := 2,
    preferredDays := [Day.monday], preferredTimes := "" }

/-- Input on which the split path has freedom: only the single hours
16 on Monday, Tuesday and Wednesday remain for the final course. -/
def coursesC3 : List Course :=
  [courseA3, courseB3, courseC3, courseD3, courseE3, courseZ3]

/-- The slot the engine produces for `courseW` at Monday 8:00. -/
def slotW : Slot :=
  { course := courseW, day := Day.monday, hour := 8, duration := 1, isSplit := false }

theorem firstSome_eq_some {α β : Type} {f : α → Option β} {xs : List α} {b : β}
    (h : firstSome f xs = some b) : ∃ x ∈ xs, f x = some b := by
  induction xs with
  | nil => simp [firstSome] at h
  | cons x xs ih =>
    rw [firstSome] at h
    cases hx : f x with
    | some b' =>
      rw [hx] at h
      exact ⟨x, by simp, by rw [hx]; exact h⟩
    | none =>
      rw [hx] at h
      obtain ⟨y, hy, hfy⟩ := ih h
      exact ⟨y, by simp [hy], hfy⟩

theorem firstSome_eq_none {α β : Type} {f : α → Option β} {xs : List α}
    (h : firstSome f xs = none) : ∀ x ∈ xs, f x = none := by
  induction xs with
  | nil => simp
  | cons x xs ih =>
    rw [firstSome] at h
    cases hx : f x with
    | some b' => rw [hx] at h; exact absurd h (by simp)
    | none =>
      rw [hx] at h
      intro y hy
      rcases List.mem_cons.mp hy with rfl | hy'
      · exact hx
      · exact ih h y hy'

theorem firstSome_isSome {α β : Type} {f : α → Option β} {xs : List α} {x : α}
    (hx : x ∈ xs) (hfx : (f x).isSome = true) : (firstSome f xs).isSome = true := by
  induction xs with
  | nil => cases hx
  | cons y ys ih =>
    rw [firstSome]
    cases hy : f y with
    | some b => simp
    | none =>
      rcases List.mem_cons.mp hx with rfl | hx'
      · rw [hy] at hfx; simp at hfx
      · exact ih hx'

theorem markCell_apply (a : Avail) (day : Day) (hour : Nat) (d : Day) (h : Nat) :
    markCell a day hour d h = if d = day ∧ h = hour then false else a d h := by
  unfold markCell
  by_cases h1 : d = day <;> by_cases h2 : h = hour <;> simp [h1, h2]

theorem markBlock_zero (a : Avail) (day : Day) (start : Nat) :
    markBlock a day start 0 = a := rfl

theorem markBlock_succ (a : Avail) (day : Day) (start dur : Nat) :
    markBlock a day start (dur + 1)
      = markCell (markBlock a day start dur) day (start + dur) := by
  unfold markBlock
  rw [List.range_succ, List.foldl_append]
  rfl

theorem markBlock_apply (a : Avail) (day : Day) (start dur : Nat) (d : Day) (h : Nat) :
    markBlock a day start dur d h
      = if d = day ∧ start ≤ h ∧ h < start + dur then false else a d h := by
  induction dur with
  | zero =>
    rw [markBlock_zero, if_neg]
    rintro ⟨-, h1, h2⟩; omega
  | succ n ih =>
    rw [markBlock_succ, markCell_apply, ih]
    by_cases hd : d = day
    · subst hd
      by_cases hA : h = start + n
      · subst hA
        rw [if_pos ⟨rfl, rfl⟩, if_pos ⟨rfl, by omega, by omega⟩]
      · by_cases hB : start ≤ h ∧ h < start + n
        · rw [if_neg (by rintro ⟨-, h'⟩; exact hA h'), if_pos ⟨rfl, hB⟩,
            if_pos ⟨rfl, hB.1, by omega⟩]
        · rw [if_neg (by rintro ⟨-, h'⟩; exact hA h'),
            if_neg (by rintro ⟨-, h1, h2⟩; exact hB ⟨h1, h2⟩),
            if_neg (by rintro ⟨-, h1, h2⟩; exact hB ⟨h1, by omega⟩)]
    · rw [if_neg (by rintro ⟨h', -⟩; exact hd h'),
        if_neg (by rintro ⟨h', -⟩; exact hd h'),
        if_neg (by rintro ⟨h', -⟩; exact hd h')]

theorem AvailLE.refl (a : Avail) : AvailLE a a := fun _ _ h => h

theorem AvailLE.trans {a b c : Avail} (h1 : AvailLE a b) (h2 : AvailLE b c) :
    AvailLE a c := fun d h hh => h2 d h (h1 d h hh)

theorem markCell_le (a : Avail) (day : Day) (hour : Nat) :
    AvailLE (markCell a day hour) a := by
  intro d h hh
  rw [markCell_apply] at hh
  by_cases hc : d = day ∧ h = hour
  · rw [if_pos hc] at hh; cases hh
  · rwa [if_neg hc] at hh

theorem markBlock_le (a : Avail) (day : Day) (start dur : Nat) :
    AvailLE (markBlock a day start dur) a := by
  intro d h hh
  rw [markBlock_apply] at hh
  by_cases hc : d = day ∧ start ≤ h ∧ h < start + dur
  · rw [if_pos hc] at hh; cases hh
  · rwa [if_neg hc] at hh

theorem markBlock_mono {a b : Avail} (hab : AvailLE a b) (day : Day) (start dur : Nat) :
    AvailLE (markBlock a day start dur) (markBlock b day start dur) := by
  intro d h hh
  rw [markBlock_apply] at hh ⊢
  by_cases hc : d = day ∧ start ≤ h ∧ h < start + dur
  · rw [if_pos hc] at hh; cases hh
  · rw [if_neg hc] at hh ⊢; exact hab d h hh

theorem mem_startRange {s dur : Nat} : s ∈ startRange dur ↔ 8 ≤ s ∧ s + dur ≤ 17 := by
  unfold startRange
  simp only [List.mem_map, List.mem_range]
  constructor
  · rintro ⟨k, hk, rfl⟩; omega
  · rintro ⟨h1, h2⟩; exact ⟨s - 8, by omega, by omega⟩

theorem mem_splitHours {h : Nat} : h ∈ splitHours ↔ 8 ≤ h ∧ h < 17 := by
  unfold splitHours
  simp only [List.mem_map, List.mem_range]
  constructor
  · rintro ⟨k, hk, rfl⟩; omega
  · rintro ⟨h1, h2⟩; exact ⟨h - 8, by omega, by omega⟩

theorem mem_solverDays (d : Day) : d ∈ solverDays := by cases d <;> decide

theorem mem_daysToTryRelaxed (c : Course) (d : Day) : d ∈ daysToTryRelaxed c := by
  unfold daysToTryRelaxed
  rw [List.mem_append]
  by_cases hd : d ∈ c.preferredDays
  · exact Or.inl hd
  · refine Or.inr (List.mem_filter.mpr ⟨mem_solverDays d, ?_⟩)
    simpa using hd

theorem canPlaceExact_true_iff {a : Avail} {day : Day} {start dur : Nat} :
    canPlaceExact a day start dur = true
      ↔ ∀ h < dur, 8 ≤ start + h ∧ start + h < 17 ∧ a day (start + h) = true := by
  unfold canPlaceExact
  rw [List.all_eq_true]
  constructor
  · intro hall h hh
    have := hall h (List.mem_range.mpr hh)
    simp only [Bool.and_eq_true, decide_eq_true_eq] at this
    exact ⟨this.1.1, this.1.2, this.2⟩
  · intro hall h hh
    have := hall h (List.mem_range.mp hh)
    simp only [Bool.and_eq_true, decide_eq_true_eq]
    exact ⟨⟨this.1, this.2.1⟩, this.2.2⟩

theorem canPlaceRelaxed_true_iff {a : Avail} {day : Day} {start dur : Nat} :
    canPlaceRelaxed a day start dur = true ↔ ∀ h < dur, a day (start + h) = true := by
  unfold canPlaceRelaxed
  rw [List.all_eq_true]
  constructor
  · intro hall h hh; exact hall h (List.mem_range.mpr hh)
  · intro hall h hh; exact hall h (List.mem_range.mp hh)

theorem canPlaceExact_mono {a b : Avail} (hab : AvailLE a b) {day : Day} {start dur : Nat}
    (h : canPlaceExact a day start dur = true) : canPlaceExact b day start dur = true := by
  rw [canPlaceExact_true_iff] at h ⊢
  intro k hk
  obtain ⟨h1, h2, h3⟩ := h k hk
  exact ⟨h1, h2, hab _ _ h3⟩

/-! The occupancy invariant: scheduled slots occupy pairwise-distinct
cells, every occupied cell is marked unavailable, and every slot hour
lies in the usable window 8..16. -/

theorem schedInv_nil (a : Avail) : SchedInv [] a :=
  ⟨List.Pairwise.nil, by simp, by simp⟩

theorem mem_contigBlock {c : Course} {day : Day} {start : Nat} {s : Slot} :
    s ∈ contigBlock c day start ↔ ∃ h, h < c.duration ∧
      s = { course := c, day := day, hour := start + h, duration := 1, isSplit := false } := by
  unfold contigBlock
  simp only [List.mem_map, List.mem_range]
  constructor
  · rintro ⟨h, hh, rfl⟩; exact ⟨h, hh, rfl⟩
  · rintro ⟨h, hh, rfl⟩; exact ⟨h, hh, rfl⟩

theorem contigBlock_length (c : Course) (day : Day) (start : Nat) :
    (contigBlock c day start).length = c.duration := by
  unfold contigBlock; simp

theorem contigBlock_pairwise (c : Course) (day : Day) (start : Nat) :
    (contigBlock c day start).Pairwise fun s t => cellOf s ≠ cellOf t := by
  unfold contigBlock
  rw [List.pairwise_map]
  have h := List.pairwise_lt_range c.duration
  refine h.imp ?_
  intro a b hab
  simp only [cellOf, ne_eq, Prod.mk.injEq, not_and]
  intro _ hcontra
  omega

theorem SchedInv.place_contig {sched : List Slot} {avail : Avail} (hInv : SchedInv sched avail)
    (c : Course) {day : Day} {start : Nat}
    (hfree : ∀ h, h < c.duration → avail day (start + h) = true)
    (hlo : 8 ≤ start) (hhi : start + c.duration ≤ 17) :
    SchedInv (sched ++ contigBlock c day start) (markBlock avail day start c.duration) := by
  constructor
  · rw [List.pairwise_append]
    refine ⟨hInv.pw, contigBlock_pairwise c day start, ?_⟩
    intro s hs t ht
    obtain ⟨h, hh, rfl⟩ := mem_contigBlock.mp ht
    intro hcell
    have hocc := hInv.occ s hs
    simp only [cellOf, Prod.mk.injEq] at hcell
    rw [hcell.1, hcell.2, hfree h hh] at hocc
    cases hocc
  · intro s hs
    rw [markBlock_apply]
    rcases List.mem_append.mp hs with hs | hs
    · by_cases hc : s.day = day ∧ start ≤ s.hour ∧ s.hour < start + c.duration
      · rw [if_pos hc]
      · rw [if_neg hc]; exact hInv.occ s hs
    · obtain ⟨h, hh, rfl⟩ := mem_contigBlock.mp hs
      rw [if_pos ⟨rfl, by simp <;> omega, by simp <;> omega⟩]
  · intro s hs
    rcases List.mem_append.mp hs with hs | hs
    · exact hInv.bounds s hs
    · obtain ⟨h, hh, rfl⟩ := mem_contigBlock.mp hs
      exact ⟨by simp <;> omega, by simp <;> omega⟩

/-! Counting free cells.  `freeRow` counts the free usable hours (8..16)
of one day; `freeOn` sums the rows of a list of days; `freeTotal` is the
count over all five days (45 on the fresh grid). -/

theorem splitHours_nodup : splitHours.Nodup := by decide

theorem solverDays_nodup : solverDays.Nodup := by decide

theorem freeTotal_initAvail : freeTotal initAvail = 45 := by decide

theorem countP_congr' {α : Type} {l : List α} {p q : α → Bool}
    (h : ∀ x ∈ l, p x = q x) : l.countP p = l.countP q := by
  induction l with
  | nil => rfl
  | cons x xs ih =>
    rw [List.countP_cons, List.countP_cons, h x (by simp),
      ih fun y hy => h y (by simp [hy])]

theorem countP_markCell {l : List Nat} (hnd : l.Nodup) {p q : Nat → Bool} {h : Nat}
    (hmem : h ∈ l) (hp : p h = true) (hq : q h = false)
    (hagr : ∀ x ∈ l, x ≠ h → q x = p x) :
    l.countP q + 1 = l.countP p := by
  induction l with
  | nil => cases hmem
  | cons x xs ih =>
    rw [List.countP_cons, List.countP_cons]
    rcases List.mem_cons.mp hmem with rfl | hmem'
    · have hnot : h ∉ xs := (List.nodup_cons.mp hnd).1
      have heq : xs.countP q = xs.countP p := by
        apply countP_congr'
        intro y hy
        exact hagr y (by simp [hy]) fun hcon => hnot (hcon ▸ hy)
      rw [hp, hq, heq]
      simp
    · have hx : x ≠ h := fun hcon => (List.nodup_cons.mp hnd).1 (hcon ▸ hmem')
      have hqx : q x = p x := hagr x (by simp) hx
      have := ih (List.nodup_cons.mp hnd).2 hmem'
        (fun y hy hne => hagr y (by simp [hy]) hne)
      rw [hqx]
      omega

theorem freeRow_markCell_self {a : Avail} {d : Day} {h : Nat}
    (h8 : 8 ≤ h) (h17 : h < 17) (ha : a d h = true) :
    freeRow (markCell a d h) d + 1 = freeRow a d := by
  unfold freeRow
  refine countP_markCell splitHours_nodup (mem_splitHours.mpr ⟨h8, h17⟩) ha ?_ ?_
  · rw [markCell_apply, if_pos ⟨rfl, rfl⟩]
  · intro x _ hne
    rw [markCell_apply, if_neg (by rintro ⟨-, h'⟩; exact hne h')]

theorem freeRow_markCell_other {a : Avail} {d day : Day} {h : Nat} (hne : d ≠ day) :
    freeRow (markCell a day h) d = freeRow a d := by
  unfold freeRow
  apply countP_congr'
  intro x _
  rw [markCell_apply, if_neg (by rintro ⟨h', -⟩; exact hne h')]

theorem freeOn_congr {ds : List Day} {a b : Avail}
    (h : ∀ d ∈ ds, freeRow a d = freeRow b d) : freeOn ds a = freeOn ds b := by
  induction ds with
  | nil => rfl
  | cons d ds ih =>
    unfold freeOn
    simp only [List.map_cons, List.sum_cons]
    rw [h d (by simp)]
    have := ih fun d' hd' => h d' (by simp [hd'])
    unfold freeOn at this
    omega

theorem freeOn_sub {ds : List Day} (hnd : ds.Nodup) {d : Day} (hd : d ∈ ds)
    {a b : Avail} {k : Nat}
    (hrow : freeRow b d + k = freeRow a d)
    (hoth : ∀ d', d' ≠ d → freeRow b d' = freeRow a d') :
    freeOn ds b + k = freeOn ds a := by
  induction ds with
  | nil => cases hd
  | cons x xs ih =>
    unfold freeOn
    simp only [List.map_cons, List.sum_cons]
    rcases List.mem_cons.mp hd with rfl | hd'
    · have hrest : freeOn xs b = freeOn xs a := by
        apply freeOn_congr
        intro d' hd'
        exact hoth d' fun hcon => (List.nodup_cons.mp hnd).1 (hcon ▸ hd')
      unfold freeOn at hrest
      omega
    · have hx : x ≠ d := fun hcon => (List.nodup_cons.mp hnd).1 (hcon ▸ hd')
      have := ih (List.nodup_cons.mp hnd).2 hd'
      unfold freeOn at this
      rw [hoth x hx]
      omega

theorem freeOn_eraseIdx (ds : List Day) (a : Avail) (i : Nat) (hi : i < ds.length) :
    freeOn (ds.eraseIdx i) a + freeRow a ds[i] = freeOn ds a := by
  induction ds generalizing i with
  | nil => simp at hi
  | cons x xs ih =>
    cases i with
    | zero =>
      show freeOn xs a + freeRow a x = freeOn (x :: xs) a
      unfold freeOn
      simp only [List.map_cons, List.sum_cons]
      omega
    | succ n =>
      simp only [List.eraseIdx_cons_succ, List.getElem_cons_succ]
      unfold freeOn
      simp only [List.map_cons, List.sum_cons]
      have := ih n (by simpa using hi)
      unfold freeOn at this
      omega

theorem freeTotal_markCell {a : Avail} {d : Day} {h : Nat}
    (h8 : 8 ≤ h) (h17 : h < 17) (ha : a d h = true) :
    freeTotal (markCell a d h) + 1 = freeTotal a :=
  freeOn_sub solverDays_nodup (mem_solverDays d)
    (freeRow_markCell_self h8 h17 ha)
    (fun _ hne => freeRow_markCell_other hne)

theorem freeTotal_markBlock {a : Avail} {day : Day} {start dur : Nat}
    (hfree : ∀ h, h < dur → a day (start + h) = true)
    (hlo : 8 ≤ start) (hhi : start + dur ≤ 17) :
    freeTotal (markBlock a day start dur) + dur = freeTotal a := by
  induction dur with
  | zero => rw [markBlock_zero]; omega
  | succ n ih =>
    rw [markBlock_succ]
    have hcell : markBlock a day start n day (start + n) = true := by
      rw [markBlock_apply, if_neg (by rintro ⟨-, -, h'⟩; omega)]
      exact hfree n (by omega)
    have h1 := freeTotal_markCell (a := markBlock a day start n)
      (by omega) (by omega) hcell
    have h2 := ih (fun h hh => hfree h (by omega)) (by omega)
    omega

/-! Characterization of the split path.  `splitDayHours_spec` describes
one day visit; `splitLoop_spec` describes the whole `while` loop,
including the fact that it never runs out of the modelled fuel. -/

theorem schedInv_place_split {sched : List Slot} {avail : Avail}
    (hInv : SchedInv sched avail) {c : Course} {origDur : Nat} {day : Day} {h : Nat}
    (h8 : 8 ≤ h) (h17 : h < 17) (ha : avail day h = true) :
    SchedInv (sched ++ [splitSlot c origDur day h]) (markCell avail day h) := by
  constructor
  · rw [List.pairwise_append]
    refine ⟨hInv.pw, by simp, ?_⟩
    intro s hs t ht
    rw [List.mem_singleton] at ht
    subst ht
    intro hcell
    have hocc := hInv.occ s hs
    simp only [cellOf, splitSlot, Prod.mk.injEq] at hcell
    rw [hcell.1, hcell.2, ha] at hocc
    cases hocc
  · intro s hs
    rcases List.mem_append.mp hs with hs | hs
    · rw [markCell_apply]
      by_cases hc : s.day = day ∧ s.hour = h
      · rw [if_pos hc]
      · rw [if_neg hc]; exact hInv.occ s hs
    · rw [List.mem_singleton] at hs
      subst hs
      rw [markCell_apply, if_pos ⟨rfl, rfl⟩]
  · intro s hs
    rcases List.mem_append.mp hs with hs | hs
    · exact hInv.bounds s hs
    · rw [List.mem_singleton] at hs
      subst hs
      exact ⟨h8, h17⟩

theorem splitDayHours_spec {c : Course} {origDur : Nat} {day : Day} :
    ∀ (hs : List Nat) (sched : List Slot) (avail : Avail) (hp : Nat) (flag : Bool)
      {sched' : List Slot} {avail' : Avail} {hp' : Nat} {flag' : Bool},
    splitDayHours c origDur day hs sched avail hp flag = (sched', avail', hp', flag') →
    hs.Nodup → (∀ h ∈ hs, h ∈ splitHours) → hp < origDur →
    SplitDayOut c origDur day hs sched avail hp flag sched' avail' hp' flag' := by
  intro hs
  induction hs with
  | nil =>
    intro sched avail hp flag sched' avail' hp' flag' heq _ _ hhp
    rw [splitDayHours, Prod.mk.injEq, Prod.mk.injEq, Prod.mk.injEq] at heq
    obtain ⟨rfl, rfl, rfl, rfl⟩ := heq
    refine ⟨⟨[], by simp, by simp, by simp⟩, le_refl _, by omega, ?_, by simp,
      AvailLE.refl _, fun _ _ _ => rfl, by omega, id, fun _ => ⟨rfl, rfl, rfl⟩⟩
    simp only [List.countP_nil]
    omega
  | cons h hs ih =>
    intro sched avail hp flag sched' avail' hp' flag' heq hnd hsub hhp
    have hnd' := (List.nodup_cons.mp hnd).2
    have hnotin : h ∉ hs := (List.nodup_cons.mp hnd).1
    have hsub' : ∀ x ∈ hs, x ∈ splitHours := fun x hx => hsub x (by simp [hx])
    have hbd : 8 ≤ h ∧ h < 17 := mem_splitHours.mp (hsub h (by simp))
    rw [splitDayHours] at heq
    by_cases ha : avail day h = true
    · rw [if_pos ha] at heq
      by_cases htop : origDur ≤ hp + 1
      · rw [if_pos htop] at heq
        rw [Prod.mk.injEq, Prod.mk.injEq, Prod.mk.injEq] at heq
        obtain ⟨rfl, rfl, rfl, rfl⟩ := heq
        refine ⟨⟨[splitSlot c origDur day h], rfl, by rw [List.length_singleton]; omega, ?_⟩,
          by omega, by omega, ?_,
          by simp, markCell_le avail day h, ?_, ?_,
          fun hInv => schedInv_place_split hInv hbd.1 hbd.2 ha, by intro hcon; omega⟩
        · intro s hsmem
          rw [List.mem_singleton] at hsmem
          exact ⟨h, by simp, hsmem⟩
        · rw [List.countP_cons]
          simp only [ha, if_true]
          omega
        · intro d x hreg
          rw [markCell_apply, if_neg]
          rintro ⟨rfl, rfl⟩
          exact hreg ⟨rfl, by simp⟩
        · have := freeRow_markCell_self (a := avail) (d := day) hbd.1 hbd.2 ha
          omega
      · rw [if_neg htop] at heq
        have hstep := ih (sched ++ [splitSlot c origDur day h]) (markCell avail day h)
          (hp + 1) true heq hnd' hsub' (by omega)
        have hcnt_tail : hs.countP (fun x => markCell avail day h day x)
            = hs.countP fun x => avail day x := by
          apply countP_congr'
          intro x hx
          rw [markCell_apply, if_neg]
          rintro ⟨-, rfl⟩
          exact hnotin hx
        refine ⟨?_, by have := hstep.mono; omega, hstep.le, ?_, ?_,
          hstep.availLE.trans (markCell_le avail day h), ?_, ?_, ?_, ?_⟩
        · obtain ⟨new, hnew, hlen, hmem⟩ := hstep.app
          refine ⟨splitSlot c origDur day h :: new, by simp [hnew], by simp; omega, ?_⟩
          intro s hsmem
          rcases List.mem_cons.mp hsmem with rfl | hsmem'
          · exact ⟨h, by simp, rfl⟩
          · obtain ⟨x, hx, hxeq⟩ := hmem s hsmem'
            exact ⟨x, by simp [hx], hxeq⟩
        · rw [hstep.cnt, hcnt_tail, List.countP_cons]
          simp only [ha, if_true]
          omega
        · rw [hstep.flagEq]
          have h1 : hp < hp' := by have := hstep.mono; omega
          simp [h1]
        · intro d x hreg
          rw [hstep.outside d x (by rintro ⟨rfl, hx⟩; exact hreg ⟨rfl, by simp [hx]⟩),
            markCell_apply, if_neg]
          rintro ⟨rfl, rfl⟩
          exact hreg ⟨rfl, by simp⟩
        · have h1 := hstep.row
          have h2 := freeRow_markCell_self (a := avail) (d := day) hbd.1 hbd.2 ha
          have := hstep.mono
          omega
        · intro hInv
          exact hstep.inv (schedInv_place_split hInv hbd.1 hbd.2 ha)
        · intro hcon
          have := hstep.mono
          omega
    · rw [if_neg ha] at heq
      have hstep := ih sched avail hp flag heq hnd' hsub' hhp
      have hfalse : avail day h = false := by
        cases hav : avail day h
        · rfl
        · exact absurd hav ha
      refine ⟨?_, hstep.mono, hstep.le, ?_, hstep.flagEq, hstep.availLE, ?_,
        hstep.row, hstep.inv, hstep.fix⟩
      · obtain ⟨new, hnew, hlen, hmem⟩ := hstep.app
        refine ⟨new, hnew, hlen, ?_⟩
        intro s hsmem
        obtain ⟨x, hx, hxeq⟩ := hmem s hsmem
        exact ⟨x, by simp [hx], hxeq⟩
      · rw [hstep.cnt, List.countP_cons]
        simp [hfalse]
      · intro d x hreg
        exact hstep.outside d x (by rintro ⟨rfl, hx⟩; exact hreg ⟨rfl, by simp [hx]⟩)

theorem splitLoop_spec {c : Course} {origDur : Nat} :
    ∀ (fuel : Nat) (rnd : List Nat) (ds : List Day) (sched : List Slot)
      (avail : Avail) (hp : Nat),
    ds.Nodup → hp ≤ origDur → origDur - hp + ds.length < fuel →
    ∃ sched' avail' hp' rnd',
      splitLoop c origDur fuel rnd ds sched avail hp
        = some (sched', avail', hp', rnd') ∧
      SplitLoopOut c origDur ds sched avail hp sched' avail' hp' := by
  intro fuel
  induction fuel with
  | zero => intro rnd ds sched avail hp _ _ hfuel; omega
  | succ n ih =>
    intro rnd ds sched avail hp hnd hle hfuel
    by_cases hcond : hp < origDur ∧ 0 < ds.length
    · rcases hsd : splitDayHours c origDur (ds.getD (rnd.headD 0 % ds.length) Day.monday)
        splitHours sched avail hp false with ⟨sched₁, avail₁, hp₁, flag⟩
      have hidx : rnd.headD 0 % ds.length < ds.length := Nat.mod_lt _ hcond.2
      have hdayeq : ds.getD (rnd.headD 0 % ds.length) Day.monday
          = ds[rnd.headD 0 % ds.length] := List.getD_eq_getElem ds Day.monday hidx
      have hdaymem : ds.getD (rnd.headD 0 % ds.length) Day.monday ∈ ds := by
        rw [hdayeq]; exact List.getElem_mem hidx
      have hstep := splitDayHours_spec splitHours sched avail hp false hsd
        splitHours_nodup (fun _ hx => hx) hcond.1
      have hoth : ∀ d', d' ≠ ds.getD (rnd.headD 0 % ds.length) Day.monday →
          freeRow avail₁ d' = freeRow avail d' := by
        intro d' hne
        unfold freeRow
        apply countP_congr'
        intro x _
        exact hstep.outside d' x (by rintro ⟨rfl, -⟩; exact hne rfl)
      have hrowcnt : (splitHours.countP fun h =>
          avail (ds.getD (rnd.headD 0 % ds.length) Day.monday) h)
          = freeRow avail (ds.getD (rnd.headD 0 % ds.length) Day.monday) := rfl
      cases flag with
      | true =>
        have hlt : hp < hp₁ := by
          have := hstep.flagEq
          simp only [Bool.false_or] at this
          exact of_decide_eq_true this.symm
        obtain ⟨sched', avail', hp', rnd', heq', hout⟩ :=
          ih rnd.tail ds sched₁ avail₁ hp₁ hnd hstep.le (by omega)
        refine ⟨sched', avail', hp', rnd', ?_, ?_⟩
        · rw [splitLoop, if_pos hcond]
          rw [hsd]
          exact heq'
        · have hfreeOn : freeOn ds avail₁ + (hp₁ - hp) = freeOn ds avail :=
            freeOn_sub hnd hdaymem hstep.row hoth
          have hfreeTot : freeTotal avail₁ + (hp₁ - hp) = freeTotal avail :=
            freeOn_sub solverDays_nodup
              (mem_solverDays (ds.getD (rnd.headD 0 % ds.length) Day.monday))
              hstep.row hoth
          refine ⟨?_, by have := hout.mono; omega, hout.le, ?_,
            hout.availLE.trans hstep.availLE, ?_, fun hInv => hout.inv (hstep.inv hInv)⟩
          · obtain ⟨new₁, hnew₁, hlen₁, hmem₁⟩ := hstep.app
            obtain ⟨new₂, hnew₂, hlen₂, hmem₂⟩ := hout.app
            refine ⟨new₁ ++ new₂, by rw [hnew₂, hnew₁, List.append_assoc],
              by rw [List.length_append]; omega, ?_⟩
            intro s hsmem
            rcases List.mem_append.mp hsmem with hsmem | hsmem
            · obtain ⟨h, hh, hseq⟩ := hmem₁ s hsmem
              have hb := mem_splitHours.mp hh
              exact ⟨_, h, hdaymem, hb.1, hb.2, hseq⟩
            · exact hmem₂ s hsmem
          · have hc₁ := hstep.cnt
            rw [hrowcnt] at hc₁
            have hc₂ := hout.cnt
            have hm := hstep.mono
            omega
          · have h1 := hout.total
            have h2 := hfreeTot
            have h3 := hout.mono
            have h4 := hstep.mono
            omega
      | false =>
        have hnotlt : ¬hp < hp₁ := by
          have hf := hstep.flagEq
          simp only [Bool.false_or] at hf
          intro hcon
          rw [decide_eq_true hcon] at hf
          cases hf
        have hfixhp : hp₁ = hp := by
          have := hstep.mono
          omega
        obtain ⟨hsched₁, havail₁, -⟩ := hstep.fix hfixhp
        have hrow0 : freeRow avail (ds.getD (rnd.headD 0 % ds.length) Day.monday) = 0 := by
          have hc₁ := hstep.cnt
          rw [hrowcnt, hfixhp] at hc₁
          have := hcond.1
          omega
        have hnd' : (ds.eraseIdx (rnd.headD 0 % ds.length)).Nodup :=
          hnd.sublist (List.eraseIdx_sublist ds (rnd.headD 0 % ds.length))
        have hlen' : (ds.eraseIdx (rnd.headD 0 % ds.length)).length + 1 = ds.length :=
          List.length_eraseIdx_add_one hidx
        obtain ⟨sched', avail', hp', rnd', heq', hout⟩ :=
          ih rnd.tail (ds.eraseIdx (rnd.headD 0 % ds.length)) sched avail hp
            hnd' hle (by omega)
        refine ⟨sched', avail', hp', rnd', ?_, ?_⟩
        · rw [splitLoop, if_pos hcond, hsd, hsched₁, havail₁, hfixhp]
          exact heq'
        · have herase : freeOn (ds.eraseIdx (rnd.headD 0 % ds.length)) avail
              + freeRow avail ds[rnd.headD 0 % ds.length] = freeOn ds avail :=
            freeOn_eraseIdx ds avail _ hidx
          rw [← hdayeq, hrow0] at herase
          refine ⟨?_, hout.mono, hout.le, ?_, hout.availLE, hout.total, hout.inv⟩
          · obtain ⟨new, hnew, hlen, hmem⟩ := hout.app
            refine ⟨new, hnew, hlen, ?_⟩
            intro s hsmem
            obtain ⟨d, h, hd, h8, h17, hseq⟩ := hmem s hsmem
            exact ⟨d, h,
              (List.eraseIdx_sublist ds (rnd.headD 0 % ds.length)).mem hd,
              h8, h17, hseq⟩
          · rw [hout.cnt]
            omega
    · refine ⟨sched, avail, hp, rnd, ?_, ?_⟩
      · rw [splitLoop, if_neg hcond]
      · rcases Nat.eq_zero_or_pos ds.length with hds | hds
        · have hnil : ds = [] := List.length_eq_zero.mp hds
          subst hnil
          refine ⟨⟨[], by simp, by simp, by simp⟩, le_refl _, hle, ?_,
            AvailLE.refl _, by omega, id⟩
          show hp = min origDur (hp + freeOn [] avail)
          have : freeOn [] avail = 0 := rfl
          omega
        · have hhp : hp = origDur := by omega
          refine ⟨⟨[], by simp, by simp, by simp⟩, le_refl _, hle, by omega,
            AvailLE.refl _, by omega, id⟩

/-- Fuel sufficiency and outcome of `tryToSplitCourse`: for any random
stream it places exactly `min c.duration (freeTotal avail)` hours, and
succeeds precisely when the grid still has `c.duration` free cells. -/
theorem tryToSplitCourse_spec (c : Course) (sched : List Slot) (avail : Avail)
    (rnd : List Nat) :
    ∃ sched' avail' rnd',
      tryToSplitCourse c sched avail rnd
        = (decide (c.duration ≤ min c.duration (freeTotal avail)), sched', avail', rnd') ∧
      SplitLoopOut c c.duration solverDays sched avail 0 sched' avail'
        (min c.duration (freeTotal avail)) := by
  obtain ⟨sched', avail', hp', rnd', heq, hout⟩ :=
    @splitLoop_spec c c.duration (splitFuel c.duration) rnd
      solverDays sched avail 0 solverDays_nodup (Nat.zero_le _)
      (by unfold splitFuel solverDays; simp)
  have hp'eq : hp' = min c.duration (freeTotal avail) := by
    have := hout.cnt
    unfold freeTotal at this ⊢
    omega
  subst hp'eq
  unfold tryToSplitCourse
  rw [heq]
  exact ⟨sched', avail', rnd', rfl, hout⟩

theorem placeContiguous_some {c : Course} {sched : List Slot} {avail : Avail}
    {sched' : List Slot} {avail' : Avail}
    (h : placeContiguous c sched avail = some (sched', avail')) :
    ∃ day start, day ∈ daysToTryRelaxed c ∧ start ∈ startRange c.duration ∧
      canPlaceRelaxed avail day start c.duration = true ∧
      sched' = sched ++ contigBlock c day start ∧
      avail' = markBlock avail day start c.duration := by
  unfold placeContiguous at h
  obtain ⟨day, hday, h2⟩ := firstSome_eq_some h
  obtain ⟨start, hstart, h3⟩ := firstSome_eq_some h2
  by_cases hc : canPlaceRelaxed avail day start c.duration = true
  · rw [if_pos hc] at h3
    simp only [Option.some.injEq, Prod.mk.injEq] at h3
    exact ⟨day, start, hday, hstart, hc, h3.1.symm, h3.2.symm⟩
  · rw [if_neg hc] at h3
    cases h3

theorem placeContiguous_none {c : Course} {sched : List Slot} {avail : Avail}
    (h : placeContiguous c sched avail = none) :
    ∀ day ∈ daysToTryRelaxed c, ∀ start ∈ startRange c.duration,
      canPlaceRelaxed avail day start c.duration = false := by
  intro day hday start hstart
  unfold placeContiguous at h
  have h3 := firstSome_eq_none (firstSome_eq_none h day hday) start hstart
  by_cases hc : canPlaceRelaxed avail day start c.duration = true
  · rw [if_pos hc] at h3
    cases h3
  · cases hcc : canPlaceRelaxed avail day start c.duration
    · rfl
    · exact absurd hcc hc

theorem placeContiguous_zero {c : Course} (hc : c.duration = 0)
    (sched : List Slot) (avail : Avail) :
    (placeContiguous c sched avail).isSome = true := by
  unfold placeContiguous
  apply firstSome_isSome (mem_daysToTryRelaxed c Day.monday)
  apply firstSome_isSome (x := 8) (mem_startRange.mpr (by omega))
  rw [if_pos]
  · rfl
  · unfold canPlaceRelaxed
    rw [hc]
    rfl

theorem freeTotal_eq_zero_of_no_single {c : Course} {sched : List Slot} {avail : Avail}
    (hdur : c.duration = 1) (h : placeContiguous c sched avail = none) :
    freeTotal avail = 0 := by
  have hall : ∀ d : Day, ∀ x ∈ splitHours, avail d x = false := by
    intro d x hx
    have hb := mem_splitHours.mp hx
    have hmem : x ∈ startRange c.duration := by
      rw [hdur, mem_startRange]
      omega
    have hPC := placeContiguous_none h d (mem_daysToTryRelaxed c d) x hmem
    cases hav : avail d x
    · rfl
    · exfalso
      have h1 : canPlaceRelaxed avail d x c.duration = true := by
        rw [canPlaceRelaxed_true_iff]
        intro k hk
        rw [hdur] at hk
        have hk0 : k = 0 := by omega
        subst hk0
        simpa using hav
      rw [hPC] at h1
      cases h1
  have hrow : ∀ d : Day, freeRow avail d = 0 := by
    intro d
    unfold freeRow
    rw [List.countP_eq_zero]
    intro x hx
    simp [hall d x hx]
  unfold freeTotal freeOn solverDays
  simp [hrow]

/-! The stable sort of `relaxedScheduling`. -/

theorem courseBefore_total (a b : Course) :
    courseBefore a b = true ∨ courseBefore b a = true := by
  unfold courseBefore
  simp only [Bool.or_eq_true, Bool.and_eq_true, decide_eq_true_eq]
  omega

theorem courseBefore_trans {a b c : Course} (h1 : courseBefore a b = true)
    (h2 : courseBefore b c = true) : courseBefore a c = true := by
  unfold courseBefore at h1 h2 ⊢
  simp only [Bool.or_eq_true, Bool.and_eq_true, decide_eq_true_eq] at h1 h2 ⊢
  omega

theorem insertCourse_perm (x : Course) (l : List Course) :
    (insertCourse x l).Perm (x :: l) := by
  induction l with
  | nil => exact List.Perm.refl _
  | cons y ys ih =>
    unfold insertCourse
    by_cases h : courseBefore x y = true
    · rw [if_pos h]
    · rw [if_neg h]
      exact (ih.cons y).trans (List.Perm.swap x y ys)

theorem sortCourses_perm (l : List Course) : (sortCourses l).Perm l := by
  induction l with
  | nil => exact List.Perm.refl _
  | cons x xs ih =>
    unfold sortCourses
    exact (insertCourse_perm x (sortCourses xs)).trans (ih.cons x)

theorem insertCourse_pairwise {x : Course} {l : List Course}
    (hl : l.Pairwise fun a b => courseBefore a b = true) :
    (insertCourse x l).Pairwise fun a b => courseBefore a b = true := by
  induction l with
  | nil => simp [insertCourse]
  | cons y ys ih =>
    obtain ⟨hy, hys⟩ := List.pairwise_cons.mp hl
    unfold insertCourse
    by_cases h : courseBefore x y = true
    · rw [if_pos h]
      rw [List.pairwise_cons]
      refine ⟨?_, hl⟩
      intro z hz
      rcases List.mem_cons.mp hz with rfl | hz'
      · exact h
      · exact courseBefore_trans h (hy z hz')
    · rw [if_neg h]
      rw [List.pairwise_cons]
      refine ⟨?_, ih hys⟩
      intro z hz
      rcases List.mem_cons.mp ((insertCourse_perm x ys).mem_iff.mp hz) with rfl | hz'
      · rcases courseBefore_total z y with h' | h'
        · exact absurd h' h
        · exact h'
      · exact hy z hz'

theorem sortCourses_pairwise (l : List Course) :
    (sortCourses l).Pairwise fun a b => courseBefore a b = true := by
  induction l with
  | nil => exact List.Pairwise.nil
  | cons x xs ih =>
    unfold sortCourses
    exact insertCourse_pairwise ih

theorem sumDur_cons (c : Course) (cs : List Course) :
    sumDur (c :: cs) = c.duration + sumDur cs := by
  unfold sumDur
  simp

theorem sumDur_perm {l l' : List Course} (h : l.Perm l') : sumDur l = sumDur l' := by
  unfold sumDur
  exact (h.map Course.duration).sum_eq

/-! Soundness and completeness of the relaxed solver. -/

theorem relaxedGo_sound :
    ∀ (cs : List Course) (rnd : List Nat) (sched : List Slot) (avail : Avail),
    (relaxedGo cs rnd sched avail).success = true →
    SchedInv sched avail →
    ∃ blocks avail',
      (relaxedGo cs rnd sched avail).schedule = sched ++ blocks.join ∧
      List.Forall₂ CourseBlock cs blocks ∧
      SchedInv ((relaxedGo cs rnd sched avail).schedule) avail' := by
  intro cs
  induction cs with
  | nil =>
    intro rnd sched avail _ hInv
    exact ⟨[], avail, by simp [relaxedGo], List.Forall₂.nil,
      by simpa [relaxedGo] using hInv⟩
  | cons c rest ih =>
    intro rnd sched avail hsucc hInv
    cases hpc : placeContiguous c sched avail with
    | some pair =>
      obtain ⟨sched₁, avail₁⟩ := pair
      simp only [relaxedGo, hpc] at hsucc ⊢
      obtain ⟨day, start, hday, hstart, hcan, hsched₁, havail₁⟩ :=
        placeContiguous_some hpc
      subst hsched₁
      subst havail₁
      obtain ⟨hlo, hhi⟩ := mem_startRange.mp hstart
      have hInv₁ := hInv.place_contig c (canPlaceRelaxed_true_iff.mp hcan) hlo hhi
      obtain ⟨blocks, avail', hsch, hf2, hinv'⟩ := ih rnd _ _ hsucc hInv₁
      refine ⟨contigBlock c day start :: blocks, avail', ?_,
        List.Forall₂.cons (Or.inl ⟨day, start, hlo, hhi, rfl⟩) hf2, ?_⟩
      · rw [hsch]
        simp [List.append_assoc]
      · exact hinv'
    | none =>
      by_cases hdur : c.duration > 1
      · obtain ⟨sched', avail', rnd', heqT, houtT⟩ :=
          tryToSplitCourse_spec c sched avail rnd
        by_cases hfit : c.duration ≤ freeTotal avail
        · have hdec : decide (c.duration ≤ min c.duration (freeTotal avail)) = true := by
            rw [decide_eq_true_eq]
            omega
          have hmin : min c.duration (freeTotal avail) = c.duration := by omega
          simp only [relaxedGo, hpc, if_pos hdur, heqT, hdec] at hsucc ⊢
          obtain ⟨blocks, avail'', hsch, hf2, hinv'⟩ := ih rnd' _ _ hsucc (houtT.inv hInv)
          obtain ⟨new, hnew, hlen, hmem⟩ := houtT.app
          refine ⟨new :: blocks, avail'', ?_, List.Forall₂.cons (Or.inr ⟨?_, ?_⟩) hf2, ?_⟩
          · rw [hsch, hnew]
            simp [List.append_assoc]
          · omega
          · intro s hsmem
            obtain ⟨d, h, _, h8, h17, hseq⟩ := hmem s hsmem
            exact ⟨d, h, h8, h17, hseq⟩
          · exact hinv'
        · have hdec : decide (c.duration ≤ min c.duration (freeTotal avail)) = false := by
            rw [decide_eq_false_iff_not]
            omega
          simp only [relaxedGo, hpc, if_pos hdur, heqT, hdec] at hsucc
          cases hsucc
      · simp only [relaxedGo, hpc, if_neg hdur] at hsucc
        cases hsucc

theorem relaxedGo_complete :
    ∀ (cs : List Course) (rnd : List Nat) (sched : List Slot) (avail : Avail),
    sumDur cs ≤ freeTotal avail →
    (relaxedGo cs rnd sched avail).success = true := by
  intro cs
  induction cs with
  | nil => intro rnd sched avail _; simp [relaxedGo]
  | cons c rest ih =>
    intro rnd sched avail hsum
    rw [sumDur_cons] at hsum
    cases hpc : placeContiguous c sched avail with
    | some pair =>
      obtain ⟨sched₁, avail₁⟩ := pair
      simp only [relaxedGo, hpc]
      obtain ⟨day, start, hday, hstart, hcan, hsched₁, havail₁⟩ :=
        placeContiguous_some hpc
      subst hsched₁
      subst havail₁
      obtain ⟨hlo, hhi⟩ := mem_startRange.mp hstart
      have hft := freeTotal_markBlock (canPlaceRelaxed_true_iff.mp hcan) hlo hhi
      exact ih rnd _ _ (by omega)
    | none =>
      match hd : c.duration, hsum with
      | 0, hsum =>
        have := placeContiguous_zero hd sched avail
        rw [hpc] at this
        cases this
      | 1, hsum =>
        have := freeTotal_eq_zero_of_no_single hd hpc
        omega
      | (n + 2), hsum =>
        have hdur : c.duration > 1 := by omega
        obtain ⟨sched', avail', rnd', heqT, houtT⟩ :=
          tryToSplitCourse_spec c sched avail rnd
        have hfit : c.duration ≤ freeTotal avail := by omega
        have hdec : decide (c.duration ≤ min c.duration (freeTotal avail)) = true := by
          rw [decide_eq_true_eq]
          omega
        simp only [relaxedGo, hpc, if_pos hdur, heqT, hdec]
        have htot := houtT.total
        exact ih rnd' _ _ (by omega)

/-! Soundness and completeness of the exact backtracking solver. -/

theorem backtrack_sound :
    ∀ (cs : List Course) (sched : List Slot) (avail : Avail) (res : List Slot),
    backtrackScheduling cs sched avail = some res →
    ∃ ps, FeasibleFrom avail cs ps ∧
      res = sched ++ (planBlocks cs ps).join ∧ ps.length = cs.length := by
  intro cs
  induction cs with
  | nil =>
    intro sched avail res h
    rw [backtrackScheduling] at h
    injection h with h
    exact ⟨[], trivial, by simp [planBlocks, h], rfl⟩
  | cons c rest ih =>
    intro sched avail res h
    rw [backtrackScheduling] at h
    obtain ⟨day, hday, h2⟩ := firstSome_eq_some h
    obtain ⟨start, hstart, h3⟩ := firstSome_eq_some h2
    by_cases hc : canPlaceExact avail day start c.duration = true
    · rw [if_pos hc] at h3
      obtain ⟨ps, hfeas, hres, hlen⟩ := ih _ _ _ h3
      refine ⟨(day, start) :: ps, ⟨hday, hstart, hc, hfeas⟩, ?_, by simp [hlen]⟩
      rw [hres]
      simp [planBlocks, List.append_assoc]
    · rw [if_neg hc] at h3
      cases h3

theorem backtrack_complete :
    ∀ (cs : List Course) (ps : List (Day × Nat)) (sched : List Slot) (avail : Avail),
    FeasibleFrom avail cs ps →
    (backtrackScheduling cs sched avail).isSome = true := by
  intro cs
  induction cs with
  | nil =>
    intro ps sched avail _
    rw [backtrackScheduling]
    rfl
  | cons c rest ih =>
    intro ps sched avail hfeas
    cases ps with
    | nil => exact hfeas.elim
    | cons p ps' =>
      obtain ⟨hday, hstart, hcan, hfeas'⟩ := hfeas
      rw [backtrackScheduling]
      apply firstSome_isSome hday
      apply firstSome_isSome hstart
      rw [if_pos hcan]
      exact ih ps' _ _ hfeas'

theorem FeasibleFrom_mono :
    ∀ {cs : List Course} {ps : List (Day × Nat)} {a b : Avail},
    AvailLE a b → FeasibleFrom a cs ps → FeasibleFrom b cs ps := by
  intro cs
  induction cs with
  | nil =>
    intro ps a b _ h
    cases ps with
    | nil => trivial
    | cons p ps' => exact h.elim
  | cons c rest ih =>
    intro ps a b hab h
    cases ps with
    | nil => exact h.elim
    | cons p ps' =>
      obtain ⟨h1, h2, h3, h4⟩ := h
      exact ⟨h1, h2, canPlaceExact_mono hab h3, ih (markBlock_mono hab _ _ _) h4⟩

theorem FeasibleFrom_remove :
    ∀ (xs : List Course) (c : Course) (ys : List Course) (avail : Avail)
      (ps : List (Day × Nat)),
    FeasibleFrom avail (xs ++ c :: ys) ps →
    ∃ qs, FeasibleFrom avail (xs ++ ys) qs := by
  intro xs
  induction xs with
  | nil =>
    intro c ys avail ps h
    cases ps with
    | nil => exact h.elim
    | cons p ps' =>
      obtain ⟨-, -, -, h4⟩ := h
      exact ⟨ps', FeasibleFrom_mono (markBlock_le _ _ _ _) h4⟩
  | cons x xs' ih =>
    intro c ys avail ps h
    cases ps with
    | nil => exact h.elim
    | cons p ps' =>
      obtain ⟨h1, h2, h3, h4⟩ := h
      obtain ⟨qs, hqs⟩ := ih c ys _ ps' h4
      exact ⟨p :: qs, h1, h2, h3, hqs⟩

theorem FeasibleFrom_inv :
    ∀ (cs : List Course) (ps : List (Day × Nat)) (sched : List Slot) (avail : Avail),
    FeasibleFrom avail cs ps → SchedInv sched avail →
    ∃ avail', SchedInv (sched ++ (planBlocks cs ps).join) avail' := by
  intro cs
  induction cs with
  | nil =>
    intro ps sched avail hfeas hInv
    cases ps with
    | nil => exact ⟨avail, by simpa [planBlocks] using hInv⟩
    | cons p ps' => exact hfeas.elim
  | cons c rest ih =>
    intro ps sched avail hfeas hInv
    cases ps with
    | nil => exact hfeas.elim
    | cons p ps' =>
      obtain ⟨hday, hstart, hcan, hfeas'⟩ := hfeas
      obtain ⟨hlo, hhi⟩ := mem_startRange.mp hstart
      have hfree : ∀ h, h < c.duration → avail p.1 (p.2 + h) = true :=
        fun h hh => (canPlaceExact_true_iff.mp hcan h hh).2.2
      have hInv₁ := hInv.place_contig c hfree hlo hhi
      obtain ⟨avail', hinv'⟩ := ih ps' _ _ hfeas' hInv₁
      refine ⟨avail', ?_⟩
      have heq : sched ++ (planBlocks (c :: rest) (p :: ps')).join
          = (sched ++ contigBlock c p.1 p.2) ++ (planBlocks rest ps').join := by
        simp [planBlocks, List.append_assoc]
      rw [heq]
      exact hinv'

theorem FeasibleFrom_courseBlocks :
    ∀ (cs : List Course) (ps : List (Day × Nat)) (avail : Avail),
    FeasibleFrom avail cs ps →
    List.Forall₂ CourseBlock cs (planBlocks cs ps) := by
  intro cs
  induction cs with
  | nil =>
    intro ps avail hfeas
    cases ps with
    | nil => exact List.Forall₂.nil
    | cons p ps' => exact hfeas.elim
  | cons c rest ih =>
    intro ps avail hfeas
    cases ps with
    | nil => exact hfeas.elim
    | cons p ps' =>
      obtain ⟨hday, hstart, hcan, hfeas'⟩ := hfeas
      obtain ⟨hlo, hhi⟩ := mem_startRange.mp hstart
      exact List.Forall₂.cons (Or.inl ⟨p.1, p.2, hlo, hhi, rfl⟩) (ih ps' _ hfeas')

/-! Results of `solve`: block decomposition, capacity bound, failure
shape, and the stream-independent success criterion. -/

theorem forall2_courseBlock_join_length :
    ∀ {perm : List Course} {blocks : List (List Slot)},
    List.Forall₂ CourseBlock perm blocks → blocks.join.length = sumDur perm := by
  intro perm blocks h
  induction h with
  | nil => rfl
  | @cons c b cs bs hcb _ ih =>
    have hblen : b.length = c.duration := by
      rcases hcb with ⟨day, start, -, -, rfl⟩ | ⟨hlen, -⟩
      · exact contigBlock_length c day start
      · exact hlen
    simp only [List.join_cons, List.length_append, ih, sumDur_cons, hblen]

theorem schedule_length_le_45 {sched : List Slot} {avail : Avail}
    (hinv : SchedInv sched avail) : sched.length ≤ 45 := by
  have hnd : (sched.map cellOf).Nodup := List.pairwise_map.mpr hinv.pw
  have hsub : ∀ x ∈ sched.map cellOf, x ∈ List.product solverDays splitHours := by
    intro x hx
    obtain ⟨s, hs, rfl⟩ := List.mem_map.mp hx
    have hb := hinv.bounds s hs
    show (s.day, s.hour) ∈ _
    rw [List.pair_mem_product]
    exact ⟨mem_solverDays _, mem_splitHours.mpr hb⟩
  have h1 : (sched.map cellOf).toFinset.card = (sched.map cellOf).length :=
    List.toFinset_card_of_nodup hnd
  have h2 : (sched.map cellOf).toFinset ⊆ (List.product solverDays splitHours).toFinset := by
    intro x hx
    rw [List.mem_toFinset] at hx ⊢
    exact hsub x hx
  have h3 := Finset.card_le_card h2
  have h4 : (List.product solverDays splitHours).toFinset.card ≤ 45 := by
    have h5 := List.toFinset_card_le (List.product solverDays splitHours)
    have hlen : (List.product solverDays splitHours).length = 45 := by decide
    omega
  have h6 : (sched.map cellOf).length = sched.length := List.length_map sched cellOf
  omega

theorem solve_exact_some {rnd : List Nat} {cs : List Course} {res : List Slot}
    (hbt : backtrackScheduling cs [] initAvail = some res) :
    solve rnd cs = { success := true, schedule := res } := by
  simp only [solve, hbt]

theorem solve_exact_none_relaxed_true {rnd : List Nat} {cs : List Course}
    (hbt : backtrackScheduling cs [] initAvail = none)
    (hrs : (relaxedScheduling rnd cs).success = true) :
    solve rnd cs
      = ⟨true, (relaxedScheduling rnd cs).schedule, some relaxedMessage⟩ := by
  simp only [solve, hbt, if_pos hrs]

theorem solve_exact_none_relaxed_false {rnd : List Nat} {cs : List Course}
    (hbt : backtrackScheduling cs [] initAvail = none)
    (hrs : ¬(relaxedScheduling rnd cs).success = true) :
    solve rnd cs = ⟨false, [], some solveFailMessage⟩ := by
  simp only [solve, hbt, if_neg hrs]

theorem solve_success_spec {rnd : List Nat} {cs : List Course}
    (h : (solve rnd cs).success = true) :
    ∃ (perm : List Course) (blocks : List (List Slot)) (avail' : Avail),
      perm.Perm cs ∧ (solve rnd cs).schedule = blocks.join ∧
      List.Forall₂ CourseBlock perm blocks ∧
      SchedInv ((solve rnd cs).schedule) avail' := by
  cases hbt : backtrackScheduling cs [] initAvail with
  | some res =>
    rw [@solve_exact_some rnd cs res hbt]
    obtain ⟨ps, hfeas, hres, hlen⟩ := backtrack_sound cs [] initAvail res hbt
    obtain ⟨avail', hinv⟩ := FeasibleFrom_inv cs ps [] initAvail hfeas (schedInv_nil _)
    rw [List.nil_append] at hinv
    refine ⟨cs, planBlocks cs ps, avail', List.Perm.refl cs, ?_,
      FeasibleFrom_courseBlocks cs ps initAvail hfeas, ?_⟩
    · simpa using hres
    · show SchedInv res avail'
      rw [hres, List.nil_append]
      exact hinv
  | none =>
    by_cases hrs : (relaxedScheduling rnd cs).success = true
    · rw [solve_exact_none_relaxed_true hbt hrs]
      unfold relaxedScheduling at hrs ⊢
      obtain ⟨blocks, avail', hsch, hf2, hinv⟩ :=
        relaxedGo_sound (sortCourses cs) rnd [] initAvail hrs (schedInv_nil _)
      rw [List.nil_append] at hsch
      exact ⟨sortCourses cs, blocks, avail', sortCourses_perm cs,
        by simpa using hsch, hf2, by simpa [hsch] using hinv⟩
    · rw [solve_exact_none_relaxed_false hbt hrs] at h
      cases h

theorem solve_failure_shape {rnd : List Nat} {cs : List Course}
    (h : (solve rnd cs).success = false) :
    solve rnd cs
      = { success := false, schedule := [], message := some solveFailMessage } := by
  cases hbt : backtrackScheduling cs [] initAvail with
  | some res =>
    rw [@solve_exact_some rnd cs res hbt] at h
    cases h
  | none =>
    by_cases hrs : (relaxedScheduling rnd cs).success = true
    · rw [solve_exact_none_relaxed_true hbt hrs] at h
      cases h
    · exact solve_exact_none_relaxed_false hbt hrs

theorem solve_success_iff (rnd : List Nat) (cs : List Course) :
    (solve rnd cs).success = true ↔
      (backtrackScheduling cs [] initAvail).isSome = true ∨ sumDur cs ≤ 45 := by
  constructor
  · intro h
    cases hbt : backtrackScheduling cs [] initAvail with
    | some res => simp
    | none =>
      right
      obtain ⟨perm, blocks, avail', hperm, hsch, hf2, hinv⟩ := solve_success_spec h
      have h1 := forall2_courseBlock_join_length hf2
      have h2 := schedule_length_le_45 hinv
      rw [hsch] at h2
      rw [sumDur_perm hperm] at h1
      omega
  · intro h
    cases hbt : backtrackScheduling cs [] initAvail with
    | some res => rw [@solve_exact_some rnd cs res hbt]
    | none =>
      rcases h with h | h
      · rw [hbt] at h
        cases h
      · have hrs : (relaxedScheduling rnd cs).success = true := by
          unfold relaxedScheduling
          apply relaxedGo_complete
          rw [sumDur_perm (sortCourses_perm cs), freeTotal_initAvail]
          exact h
        rw [solve_exact_none_relaxed_true hbt hrs]

theorem sumDur_append (l l' : List Course) :
    sumDur (l ++ l') = sumDur l + sumDur l' := by
  unfold sumDur
  rw [List.map_append, List.sum_append]

theorem forall2_mem_right {α β : Type} {R : α → β → Prop} :
    ∀ {l₁ : List α} {l₂ : List β}, List.Forall₂ R l₁ l₂ →
    ∀ b ∈ l₂, ∃ a ∈ l₁, R a b := by
  intro l₁ l₂ h
  induction h with
  | nil => simp
  | @cons a b as bs hR _ ih =>
    intro x hx
    rcases List.mem_cons.mp hx with rfl | hx'
    · exact ⟨a, by simp, hR⟩
    · obtain ⟨a', ha', hRa'⟩ := ih x hx'
      exact ⟨a', by simp [ha'], hRa'⟩

theorem contigBlock_map_hour (c : Course) (day : Day) (start : Nat) :
    (contigBlock c day start).map Slot.hour
      = (List.range c.duration).map fun k => start + k := by
  simp [contigBlock, List.map_map, Function.comp]

/-! Claim C1. -/

/-- C1 counterexample: in `backtrackScheduling`, a non-empty
`preferredDays` is a hard filter, not a mere ordering.  Tuesday is
never a candidate for `courseZ1` (its `daysToTryExact` is Monday only),
and the search on `[courseM1, courseZ1]` fails outright even though the
same input with the preference dropped is schedulable on the remaining
days. -/
theorem C1_counterexample :
    courseZ1.preferredDays ≠ [] ∧
    Day.tuesday ∈ solverDays ∧
    Day.tuesday ∉ daysToTryExact courseZ1 ∧
    backtrackScheduling [courseM1, courseZ1] [] initAvail = none ∧
    (backtrackScheduling [courseM1, courseZ1free] [] initAvail).isSome = true :=
  ⟨by decide, by decide, by decide, by decide, by decide⟩

/-- C1 amended: in the Exact Solver, a course with non-empty
`preferredDays` has exactly its preferred days as candidate days — the
remaining days are never tried at that index; the
preferred-then-remaining ordering exists only in the Relaxed Solver's
`daysToTryRelaxed`. -/
theorem C1_theorem (c : Course) (h : c.preferredDays ≠ []) :
    daysToTryExact c = c.preferredDays ∧
    daysToTryRelaxed c
      = c.preferredDays ++ solverDays.filter fun d => !(c.preferredDays.contains d) := by
  constructor
  · unfold daysToTryExact
    rw [if_pos]
    simpa [List.length_pos] using h
  · rfl

/-- C1 witness: the amended statement at the concrete course
`courseZ1`. -/
theorem C1_witness :
    courseZ1.preferredDays ≠ [] ∧
    (daysToTryExact courseZ1 = courseZ1.preferredDays ∧
      daysToTryRelaxed courseZ1 = courseZ1.preferredDays
        ++ solverDays.filter fun d => !(courseZ1.preferredDays.contains d)) :=
  ⟨by decide, C1_theorem courseZ1 (by decide)⟩

/-! Claim C2. -/

/-- C2 counterexample: when `courseBig` (46 hours, more than the whole
grid) cannot be placed, the engine does not process the remaining
course, report it as unplaced in structured data, or return a partial
success: it returns a bare failure record with a generic message and no
schedule, although `courseTiny` alone is perfectly placeable. -/
theorem C2_counterexample :
    (solve [] [courseBig, courseTiny]).success = false ∧
    solve [] [courseBig, courseTiny] = ⟨false, [], some solveFailMessage⟩ ∧
    (solve [] [courseTiny]).success = true :=
  ⟨by decide, by decide, by decide⟩

/-- C2 amended: a placement failure is never thrown as an exception,
but it is also not recoverable at the batch level: as soon as one
course cannot be placed even after splitting, `relaxedScheduling`
aborts, the remaining courses are not processed, and `solve` returns
`success = false` with an empty schedule and only the generic failure
message — no structured unplaced-course data and no partial success. -/
theorem C2_theorem (rnd : List Nat) (cs : List Course)
    (h : (solve rnd cs).success = false) :
    solve rnd cs = ⟨false, [], some solveFailMessage⟩ :=
  solve_failure_shape h

/-- C2 witness: the amended failure shape at the concrete overloaded
input. -/
theorem C2_witness :
    (solve [] [courseBig, courseTiny]).success = false ∧
    solve [] [courseBig, courseTiny] = ⟨false, [], some solveFailMessage⟩ :=
  ⟨by decide, C2_theorem [] [courseBig, courseTiny] (by decide)⟩

/-! Claim C3. -/

/-- C3 counterexample: day selection in `tryToSplitCourse` is driven by
`Math.random()` (modelled as an explicit stream), and the engine is not
a deterministic function of the course list alone: on `coursesC3` two
runs that differ only in the random stream both succeed but produce
different placement sets — the split hour of course Z lands on Tuesday
16:00 in one run and not in the other. -/
theorem C3_counterexample :
    (solve [] coursesC3).success = true ∧
    (solve [2, 2, 2] coursesC3).success = true ∧
    splitSlot courseZ3 2 Day.tuesday 16 ∈ (solve [] coursesC3).schedule ∧
    splitSlot courseZ3 2 Day.tuesday 16 ∉ (solve [2, 2, 2] coursesC3).schedule :=
  ⟨by decide, by decide, by decide, by decide⟩

/-- C3 amended: the engine is a deterministic function of the input
and the random stream, and the success flag (though not the placement
set) is independent of the stream: two runs on identical input always
agree on success. -/
theorem C3_theorem (cs : List Course) (r1 r2 : List Nat) :
    (solve r1 cs).success = (solve r2 cs).success := by
  by_cases hr : (backtrackScheduling cs [] initAvail).isSome = true ∨ sumDur cs ≤ 45
  · rw [(solve_success_iff r1 cs).mpr hr, (solve_success_iff r2 cs).mpr hr]
  · cases hb1 : (solve r1 cs).success
    · cases hb2 : (solve r2 cs).success
      · rfl
      · exact absurd ((solve_success_iff r2 cs).mp hb2) hr
    · exact absurd ((solve_success_iff r1 cs).mp hb1) hr

/-! Claim C4. -/

/-- C4: a successful `solve` result decomposes into per-course blocks
of a permutation of the input — every course contributes exactly
`duration` slots (contiguously or as a split placement), no course is
silently dropped — and consequently success implies the total requested
hours fit into the 45 usable cells, so any overloaded input cannot
report success. -/
theorem C4_theorem (rnd : List Nat) (cs : List Course)
    (h : (solve rnd cs).success = true) :
    (∃ (perm : List Course) (blocks : List (List Slot)),
      perm.Perm cs ∧ (solve rnd cs).schedule = blocks.join ∧
      List.Forall₂ CourseBlock perm blocks ∧
      List.Forall₂ (fun c b => b.length = c.duration) perm blocks) ∧
    sumDur cs ≤ 45 := by
  obtain ⟨perm, blocks, avail', hperm, hsch, hf2, hinv⟩ := solve_success_spec h
  have hlen2 : List.Forall₂ (fun (c : Course) (b : List Slot) =>
      b.length = c.duration) perm blocks := by
    refine hf2.imp ?_
    intro c b hcb
    rcases hcb with ⟨day, start, -, -, rfl⟩ | ⟨hlen, -⟩
    · exact contigBlock_length c day start
    · exact hlen
  refine ⟨⟨perm, blocks, hperm, hsch, hf2, hlen2⟩, ?_⟩
  have h1 := forall2_courseBlock_join_length hf2
  have h2 := schedule_length_le_45 hinv
  rw [hsch] at h2
  rw [sumDur_perm hperm] at h1
  omega

/-- C4 witness: the full-placement decomposition at a concrete
successful input. -/
theorem C4_witness :
    (solve [] [courseW]).success = true ∧
    ((∃ (perm : List Course) (blocks : List (List Slot)),
      perm.Perm [courseW] ∧ (solve [] [courseW]).schedule = blocks.join ∧
      List.Forall₂ CourseBlock perm blocks ∧
      List.Forall₂ (fun c b => b.length = c.duration) perm blocks) ∧
    sumDur [courseW] ≤ 45) :=
  ⟨by decide, C4_theorem [] [courseW] (by decide)⟩

/-! Claim C5. -/

/-- C5: in every successful schedule returned by `solve` (exact,
relaxed or split path), no grid cell `(day, hour)` is occupied by more
than one slot, and hence for every teacher no two of that teacher's
placements share a cell. -/
theorem C5_theorem (rnd : List Nat) (cs : List Course)
    (h : (solve rnd cs).success = true) :
    ((solve rnd cs).schedule).Pairwise (fun s t => cellOf s ≠ cellOf t) ∧
    ∀ teacher : String,
      (((solve rnd cs).schedule).filter fun s =>
        s.course.teacher == teacher).Pairwise fun s t => cellOf s ≠ cellOf t := by
  obtain ⟨-, -, avail', -, -, -, hinv⟩ := solve_success_spec h
  exact ⟨hinv.pw, fun _ => hinv.pw.sublist (List.filter_sublist _)⟩

/-- C5 witness: the uniqueness invariant at a concrete successful
input. -/
theorem C5_witness :
    (solve [] [courseW]).success = true ∧
    (((solve [] [courseW]).schedule).Pairwise (fun s t => cellOf s ≠ cellOf t) ∧
    ∀ teacher : String,
      (((solve [] [courseW]).schedule).filter fun s =>
        s.course.teacher == teacher).Pairwise fun s t => cellOf s ≠ cellOf t) :=
  ⟨by decide, C5_theorem [] [courseW] (by decide)⟩

/-! Claim C6. -/

/-- C6: in every successful schedule, the slots decompose into
per-course blocks, and every block containing a non-split slot is a
contiguous placement: all its slots carry the same course and day, its
hours are one contiguous run `start, start+1, ...`, and its slot count
equals the course's duration, all inside the operating window. -/
theorem C6_theorem (rnd : List Nat) (cs : List Course)
    (h : (solve rnd cs).success = true) :
    ∃ blocks : List (List Slot),
      (solve rnd cs).schedule = blocks.join ∧
      ∀ b ∈ blocks, (∃ s ∈ b, s.isSplit = false) →
        ∃ (c : Course) (day : Day) (start : Nat),
          b = contigBlock c day start ∧ b.length = c.duration ∧
          (∀ s ∈ b, s.day = day ∧ s.course = c) ∧
          b.map Slot.hour = ((List.range c.duration).map fun k => start + k) ∧
          8 ≤ start ∧ start + c.duration ≤ 17 := by
  obtain ⟨perm, blocks, avail', hperm, hsch, hf2, hinv⟩ := solve_success_spec h
  refine ⟨blocks, hsch, ?_⟩
  rintro b hb ⟨s, hs, hsplit⟩
  obtain ⟨c, hc, hcb⟩ := forall2_mem_right hf2 b hb
  rcases hcb with ⟨day, start, hlo, hhi, rfl⟩ | ⟨hlen, hall⟩
  · refine ⟨c, day, start, rfl, contigBlock_length c day start, ?_,
      contigBlock_map_hour c day start, hlo, hhi⟩
    intro t ht
    obtain ⟨k, hk, rfl⟩ := mem_contigBlock.mp ht
    exact ⟨rfl, rfl⟩
  · obtain ⟨d, hr, -, -, hseq⟩ := hall s hs
    rw [hseq] at hsplit
    cases hsplit

/-- C6 witness: the contiguity decomposition at a concrete successful
input. -/
theorem C6_witness :
    (solve [] [courseW]).success = true ∧
    (∃ blocks : List (List Slot),
      (solve [] [courseW]).schedule = blocks.join ∧
      ∀ b ∈ blocks, (∃ s ∈ b, s.isSplit = false) →
        ∃ (c : Course) (day : Day) (start : Nat),
          b = contigBlock c day start ∧ b.length = c.duration ∧
          (∀ s ∈ b, s.day = day ∧ s.course = c) ∧
          b.map Slot.hour = ((List.range c.duration).map fun k => start + k) ∧
          8 ≤ start ∧ start + c.duration ≤ 17) :=
  ⟨by decide, C6_theorem [] [courseW] (by decide)⟩

/-! Claim C7. -/

/-- C7: monotonic improvement under load relaxation — if `solve` places
every course of a list (success), then removing any single course from
the list keeps `solve` successful, for any random streams of the two
runs. -/
theorem C7_theorem (xs : List Course) (c : Course) (ys : List Course)
    (r r' : List Nat) (h : (solve r (xs ++ c :: ys)).success = true) :
    (solve r' (xs ++ ys)).success = true := by
  rw [solve_success_iff] at h ⊢
  rcases h with h | h
  · left
    obtain ⟨res, hres⟩ := Option.isSome_iff_exists.mp h
    obtain ⟨ps, hfeas, -, -⟩ := backtrack_sound _ _ _ _ hres
    obtain ⟨qs, hqs⟩ := FeasibleFrom_remove xs c ys initAvail ps hfeas
    exact backtrack_complete _ qs [] initAvail hqs
  · right
    rw [sumDur_append] at h ⊢
    rw [sumDur_cons] at h
    omega

/-- C7 witness: removing `courseW` from a fully placed two-course list
keeps the remaining course placeable. -/
theorem C7_witness :
    (solve [] ([] ++ courseW :: [courseTiny])).success = true ∧
    (solve [] ([] ++ [courseTiny])).success = true :=
  ⟨by decide, C7_theorem [] courseW [courseTiny] [] [] (by decide)⟩

/-! Claim C8. -/

/-- C8: the Relaxed Solver processes courses in the order produced by
the stable sort of the input — descending by duration with ties broken
ascending by the number of explicit preferred days: `relaxedScheduling`
iterates exactly `sortCourses cs`, which is a permutation of the input
and is pairwise ordered by that key. -/
theorem C8_theorem (rnd : List Nat) (cs : List Course) :
    relaxedScheduling rnd cs = relaxedGo (sortCourses cs) rnd [] initAvail ∧
    (sortCourses cs).Perm cs ∧
    (sortCourses cs).Pairwise fun a b =>
      b.duration < a.duration ∨
        (a.duration = b.duration ∧ prefCount a ≤ prefCount b) := by
  refine ⟨rfl, sortCourses_perm cs, ?_⟩
  refine (sortCourses_pairwise cs).imp ?_
  intro a b hab
  unfold courseBefore at hab
  simp only [Bool.or_eq_true, Bool.and_eq_true, decide_eq_true_eq] at hab
  exact hab

/-! Claim C10. -/

/-- C10: the availability grid is built with ten hour keys (8..17), yet
no placement produced by any path of `solve` ever occupies hour 17:
every scheduled slot's hour lies in 8..16, so the effective capacity is
9 hours per day, and the grid's last hour is dead capacity. -/
theorem C10_theorem :
    solverHours.length = 10 ∧ (17 : Nat) ∈ solverHours ∧
    ∀ (rnd : List Nat) (cs : List Course), ∀ s ∈ (solve rnd cs).schedule,
      8 ≤ s.hour ∧ s.hour < 17 := by
  refine ⟨by decide, by decide, ?_⟩
  intro rnd cs s hs
  cases hsucc : (solve rnd cs).success
  · rw [solve_failure_shape hsucc] at hs
    simp at hs
  · obtain ⟨-, -, avail', -, -, -, hinv⟩ := solve_success_spec hsucc
    exact hinv.bounds s hs

/-- C10 witness: a concrete slot of a concrete run, inside the usable
window. -/
theorem C10_witness :
    slotW ∈ (solve [] [courseW]).schedule ∧ 8 ≤ slotW.hour ∧ slotW.hour < 17 :=
  ⟨by decide, C10_theorem.2.2 [] [courseW] slotW (by decide)⟩
